import Mathlib

/-
  Verification of the `MemManager` intrusive free-list allocator
  (ledger-based variant: the class with the `alloc_blocks` ledger).

  Shallow embedding: addresses and sizes are `Nat`; the intrusive singly
  linked free list reachable from `top` is represented as a `List Node`
  in list order (head = `top`, `next` pointers = list tail); `nullptr`
  corresponds to the empty tail.  The `std::unordered_map<void*,size_t>
  alloc_blocks` ledger is represented as an association list with unique
  keys.  C++ member functions that mutate `this` and may `throw` are
  embedded as functions `MM → Except Err α × MM`, returning the state at
  the moment the function finishes or throws (every operation of the
  source validates before mutating, except `defrag`, whose re-insertion
  loop can throw midway; the embedding reproduces exactly that).

  Address 0: in the source, 0 is the null-pointer sentinel (`if (!top)`,
  `while (get_next(ret))`), so no valid block ever lives at address 0;
  the embedding represents nullness by the list structure instead and is
  therefore only exercised at positive block addresses (every concrete
  statement below uses nonzero addresses).
-/

set_option autoImplicit false

namespace MemManager

/-- `sizeof(void*)` on the 64-bit platform the source assumes. -/
def ptrBytes : Nat := 8

/-- `sizeof(size_t)` on the 64-bit platform the source assumes. -/
def sizeBytes : Nat := 8

/-- The intrusive list header: `sizeof(void*) + sizeof(size_t)`, the
minimum size `add_block` / `add_block_fast` accept for a block. -/
def headerSize : Nat := ptrBytes + sizeBytes

/-- One free node of the intrusive list: its start address and the byte
count stored in its in-place size field. -/
structure Node where
  addr : Nat
  size : Nat
deriving DecidableEq, Repr

/-- The error signals of the source (`throw` of a string literal or of
`std::bad_alloc`), as an enumeration. -/
inductive Err where
  | badAlignment
  | blockTooSmall
  | outOfMemory
  | unknownPointer
deriving DecidableEq, Repr

/-- The `MemManager` instance state: free list (from `top`), the
configured `align_size`, and the `alloc_blocks` ledger. -/
structure MM where
  free : List Node
  align : Nat
  ledger : List (Nat × Nat)
deriving DecidableEq, Repr

/-- A fresh `MemManager(align)` : null `top`, empty ledger. -/
def initMM (align : Nat) : MM := ⟨[], align, []⟩

/-- Lookup in the `alloc_blocks` ledger (`alloc_blocks.find(ptr)`). -/
def ledgerLookup : List (Nat × Nat) → Nat → Option Nat
  | [], _ => none
  | e :: t, p => if e.1 = p then some e.2 else ledgerLookup t p

/-- `alloc_blocks[ptr] = v` : insert-or-overwrite of the unique entry
for key `p` (entry order is irrelevant for an `unordered_map`). -/
def ledgerSet (l : List (Nat × Nat)) (p v : Nat) : List (Nat × Nat) :=
  (p, v) :: l.eraseP (fun e => e.1 == p)

/-- `alloc_blocks.erase(entry)` : remove the entry for key `p`. -/
def ledgerErase (l : List (Nat × Nat)) (p : Nat) : List (Nat × Nat) :=
  l.eraseP (fun e => e.1 == p)

/-- Sum of the size fields of the free-list nodes. -/
def sumSize (l : List Node) : Nat := (l.map Node.size).sum

/-- Total free bytes of a state. -/
def freeTotal (s : MM) : Nat := sumSize s.free

/-- Total bytes recorded in the allocation ledger of a state. -/
def ledgerTotal (s : MM) : Nat := (s.ledger.map Prod.snd).sum

/-- The forward-merge step of `add_block`: `next` is the head of `rest`
(or null when `rest = []`).  If `block + block_size == next`, the block
absorbs `next` (`get_size(block) = block_size + get_size(next);
get_next(block) = get_next(next)`); otherwise the block keeps its size
and `next` stays its successor. -/
def mergeNext (b bs : Nat) : List Node → Node × List Node
  | [] => (⟨b, bs⟩, [])
  | nx :: t => if b + bs = nx.addr then (⟨b, bs + nx.size⟩, t) else (⟨b, bs⟩, nx :: t)

/-- The backward-merge step of `add_block`: `prev` absorbs the (already
forward-merged) block when `prev + get_size(prev) == block`
(`get_size(prev) += get_size(block); get_next(prev) = get_next(block)`),
otherwise `get_next(prev) = block`. -/
def attachPrev (prev : Node) (b : Nat) (blk : Node) (rest : List Node) : List Node :=
  if prev.addr + prev.size = b then ⟨prev.addr, prev.size + blk.size⟩ :: rest
  else prev :: blk :: rest

/-- The `get_prev` walk of `add_block` fused with the insertion: the
head plays the role of `ret`; the walk advances while `get_next(ret)`
exists and its address is `≤ block` (the source breaks at the first
`get_next(ret) > ptr`), then merges the block with `next` and `prev`. -/
def addBlockScan : List Node → Nat → Nat → List Node
  | [], _, _ => []
  | [prev], b, bs =>
      let m := mergeNext b bs []
      attachPrev prev b m.1 m.2
  | prev :: nx :: t, b, bs =>
      if b < nx.addr then
        let m := mergeNext b bs (nx :: t)
        attachPrev prev b m.1 m.2
      else prev :: addBlockScan (nx :: t) b bs

/-- The list-level effect of `add_block` after its guards: empty-list
edge case, the `top > ptr` edge case of `get_prev` (no predecessor: the
block becomes `top` after a possible forward merge with the old `top`),
and otherwise the `get_prev` scan. -/
def addBlockL (l : List Node) (b bs : Nat) : List Node :=
  match l with
  | [] => [⟨b, bs⟩]
  | n0 :: _ =>
    if b < n0.addr then
      let m := mergeNext b bs l
      m.1 :: m.2
    else addBlockScan l b bs

/-- `MemManager::add_block(block, block_size)` : ordered insertion with
coalescing.  Zero size is a no-op; a size below the header size and a
misaligned address throw before any mutation. -/
def addBlock (s : MM) (b bs : Nat) : Except Err Unit × MM :=
  if bs = 0 then (.ok (), s)
  else if bs < headerSize then (.error .blockTooSmall, s)
  else if b % s.align ≠ 0 then (.error .badAlignment, s)
  else (.ok (), { s with free := addBlockL s.free b bs })

/-- `MemManager::add_block_fast(block, block_size)` : prepend as the new
`top`, no coalescing.  Same guards as `add_block`. -/
def addBlockFast (s : MM) (b bs : Nat) : Except Err Unit × MM :=
  if bs = 0 then (.ok (), s)
  else if bs < headerSize then (.error .blockTooSmall, s)
  else if b % s.align ≠ 0 then (.error .badAlignment, s)
  else (.ok (), { s with free := ⟨b, bs⟩ :: s.free })

/-- The request-size rounding of `malloc`: `N*sizeof(T)` rounded up to
the next multiple of `align_size` (unchanged when already a multiple). -/
def reqSize (align nBytes : Nat) : Nat :=
  if nBytes % align = 0 then nBytes else nBytes + align - nBytes % align

/-- The first-fit walk and carving of `malloc`: select the first node
whose size is `≥ req`; unlink it on an exact fit, else replace it by the
remainder node at `addr + req` of size `size - req`.  Returns the chosen
address and the updated list, or `none` when no node fits. -/
def mallocGo (l : List Node) (req : Nat) : Option (Nat × List Node)
  := match l with
  | [] => none
  | n :: t =>
    if n.size < req then
      match mallocGo t req with
      | none => none
      | some (a, t') => some (a, n :: t')
    else if req = n.size then some (n.addr, t)
    else some (n.addr, ⟨n.addr + req, n.size - req⟩ :: t)

/-- `MemManager::malloc<T>(N)` with `nBytes = N * sizeof(T)` split into
the two factors.  Throws `std::bad_alloc` on an empty list and when no
node is large enough; on success records `(ptr, req_size)` in the
ledger. -/
def malloc (s : MM) (N E : Nat) : Except Err Nat × MM :=
  let req := reqSize s.align (N * E)
  match s.free with
  | [] => (.error .outOfMemory, s)
  | _ :: _ =>
    match mallocGo s.free req with
    | none => (.error .outOfMemory, s)
    | some (a, l') => (.ok a, { s with free := l', ledger := ledgerSet s.ledger a req })

/-- `MemManager::free(ptr)` : authenticate `ptr` against the ledger,
forward to `add_block` with the recorded size, then erase the entry
(the erase is skipped when `add_block` throws, as in the source). -/
def free (s : MM) (p : Nat) : Except Err Unit × MM :=
  match ledgerLookup s.ledger p with
  | none => (.error .unknownPointer, s)
  | some sz =>
    match addBlock s p sz with
    | (.error e, s') => (.error e, s')
    | (.ok _, s') => (.ok (), { s' with ledger := ledgerErase s'.ledger p })

/-- `MemManager::free_fast(ptr)` : like `free` but forwards to
`add_block_fast`. -/
def freeFast (s : MM) (p : Nat) : Except Err Unit × MM :=
  match ledgerLookup s.ledger p with
  | none => (.error .unknownPointer, s)
  | some sz =>
    match addBlockFast s p sz with
    | (.error e, s') => (.error e, s')
    | (.ok _, s') => (.ok (), { s' with ledger := ledgerErase s'.ledger p })

/-- The re-insertion loop of `defrag`: each detached node is re-inserted
through `add_block`; a throw propagates, leaving the partially rebuilt
state (the not-yet-re-inserted chain is lost), exactly as in the
source. -/
def defragGo : List Node → MM → Except Err Unit × MM
  | [], s => (.ok (), s)
  | n :: t, s =>
    match addBlock s n.addr n.size with
    | (.error e, s') => (.error e, s')
    | (.ok _, s') => defragGo t s'

/-- `MemManager::defrag()` : detach the whole list (`top = nullptr`),
then re-insert every node in original list order via `add_block`.  The
successor of each node is read before re-insertion, which the list-of-
nodes representation captures by iterating over the detached list. -/
def defrag (s : MM) : Except Err Unit × MM :=
  defragGo s.free { s with free := [] }

/-- Canonical free-list shape: strictly sorted by address with no two
adjacent nodes physically contiguous (each node ends strictly before
the next begins). -/
def Canonical : List Node → Prop
  | [] => True
  | [_] => True
  | a :: b :: t => a.addr + a.size < b.addr ∧ Canonical (b :: t)

/-- Strict sortedness of the free list by start address. -/
def SortedAddr : List Node → Prop
  | [] => True
  | [_] => True
  | a :: b :: t => a.addr < b.addr ∧ SortedAddr (b :: t)

/-- Interval disjointness of two nodes' byte ranges. -/
def Disj (a b : Node) : Prop :=
  a.addr + a.size ≤ b.addr ∨ b.addr + b.size ≤ a.addr

/-- Membership of a byte address in a node's range. -/
def InRange (n : Node) (x : Nat) : Prop :=
  n.addr ≤ x ∧ x < n.addr + n.size

def decCanonical : (l : List Node) → Decidable (Canonical l)
  | [] => .isTrue trivial
  | [_] => .isTrue trivial
  | a :: b :: t =>
    match decCanonical (b :: t) with
    | .isTrue h =>
      match Nat.decLt (a.addr + a.size) b.addr with
      | .isTrue h2 => .isTrue ⟨h2, h⟩
      | .isFalse h2 => .isFalse (fun hc => h2 hc.1)
    | .isFalse h => .isFalse (fun hc => h hc.2)

instance : (l : List Node) → Decidable (Canonical l) := decCanonical

def decSortedAddr : (l : List Node) → Decidable (SortedAddr l)
  | [] => .isTrue trivial
  | [_] => .isTrue trivial
  | a :: b :: t =>
    match decSortedAddr (b :: t) with
    | .isTrue h =>
      match Nat.decLt a.addr b.addr with
      | .isTrue h2 => .isTrue ⟨h2, h⟩
      | .isFalse h2 => .isFalse (fun hc => h2 hc.1)
    | .isFalse h => .isFalse (fun hc => h hc.2)

instance : (l : List Node) → Decidable (SortedAddr l) := decSortedAddr

instance : (a b : Node) → Decidable (Disj a b) := fun a b => by
  unfold Disj; infer_instance

theorem headerSize_eq : headerSize = 16 := rfl

theorem canonical_tail {x : Node} {l : List Node} (h : Canonical (x :: l)) :
    Canonical l := by
  cases l with
  | nil => trivial
  | cons y t => exact h.2

theorem canonical_head_lt {x : Node} {l : List Node} (h : Canonical (x :: l)) :
    ∀ b ∈ l, x.addr + x.size < b.addr := by
  induction l generalizing x with
  | nil => intro b hb; cases hb
  | cons y t ih =>
    intro b hb
    cases hb with
    | head => exact h.1
    | tail _ hb' =>
      have h1 : x.addr + x.size < y.addr := h.1
      have h2 : y.addr + y.size < b.addr := ih h.2 b hb'
      omega

/-- Decomposition of a successful first-fit walk: the list splits into a
prefix of too-small nodes, the chosen node `c`, and the rest; the result
list keeps the prefix and the rest, with `c` removed (exact fit) or
replaced by the split remainder (partial fit). -/
theorem mallocGo_spec : ∀ (l : List Node) (req p : Nat) (l' : List Node),
    mallocGo l req = some (p, l') →
    ∃ A c B, l = A ++ c :: B ∧ (∀ a ∈ A, a.size < req) ∧ req ≤ c.size ∧ p = c.addr ∧
      l' = A ++ (if req = c.size then [] else [⟨c.addr + req, c.size - req⟩]) ++ B := by
  intro l
  induction l with
  | nil => intro req p l' h; simp [mallocGo] at h
  | cons n t ih =>
    intro req p l' h
    by_cases hlt : n.size < req
    · rcases hgo : mallocGo t req with _ | ⟨a, t'⟩
      · rw [mallocGo, if_pos hlt, hgo] at h; cases h
      · rw [mallocGo, if_pos hlt, hgo] at h
        obtain ⟨hp, hl'⟩ : a = p ∧ n :: t' = l' := by
          constructor <;> [exact congrArg Prod.fst (Option.some.inj h);
            exact congrArg Prod.snd (Option.some.inj h)]
        obtain ⟨A, c, B, hdec, hA, hc, hpa, ht'⟩ := ih req a t' hgo
        refine ⟨n :: A, c, B, by rw [hdec]; rfl, ?_, hc, hp ▸ hpa, ?_⟩
        · intro m hm
          cases hm with
          | head => exact hlt
          | tail _ hm' => exact hA m hm'
        · rw [← hl', ht']; rfl
    · by_cases heq : req = n.size
      · rw [mallocGo, if_neg hlt, if_pos heq] at h
        obtain ⟨hp, hl'⟩ : n.addr = p ∧ t = l' := by
          constructor <;> [exact congrArg Prod.fst (Option.some.inj h);
            exact congrArg Prod.snd (Option.some.inj h)]
        exact ⟨[], n, t, rfl, by simp, le_of_eq heq, hp.symm, by rw [if_pos heq, ← hl']; rfl⟩
      · rw [mallocGo, if_neg hlt, if_neg heq] at h
        obtain ⟨hp, hl'⟩ : n.addr = p ∧ ⟨n.addr + req, n.size - req⟩ :: t = l' := by
          constructor <;> [exact congrArg Prod.fst (Option.some.inj h);
            exact congrArg Prod.snd (Option.some.inj h)]
        exact ⟨[], n, t, rfl, by simp, Nat.not_lt.mp hlt, hp.symm,
          by rw [if_neg heq, ← hl']; rfl⟩

/-- The ordered-insert scan restores a canonical list after a carve:
re-inserting `(c.addr, req)` into the list where `c` was removed (exact
fit) or replaced by its split remainder (partial fit) reproduces the
original list, for any prefix `a :: A` of nodes before `c`. -/
theorem addBlockScan_restores : ∀ (A : List Node) (a c : Node) (B : List Node) (req : Nat),
    Canonical (a :: A ++ c :: B) → 0 < req → req ≤ c.size →
    addBlockScan (a :: A ++ (if req = c.size then [] else [⟨c.addr + req, c.size - req⟩]) ++ B)
      c.addr req = a :: A ++ c :: B := by
  intro A
  induction A with
  | nil =>
    intro a c B req hcan hpos hle
    have hac : a.addr + a.size < c.addr := hcan.1
    have hacne : ¬ a.addr + a.size = c.addr := by omega
    by_cases hexact : req = c.size
    · subst hexact
      rw [if_pos rfl]
      cases B with
      | nil => simp [addBlockScan, mergeNext, attachPrev, hacne]
      | cons b0 B' =>
        have hb0 : c.addr + c.size < b0.addr := hcan.2.1
        have h1 : c.addr < b0.addr := by omega
        have h2 : ¬ c.addr + c.size = b0.addr := by omega
        simp [addBlockScan, mergeNext, attachPrev, h1, h2, hacne]
    · rw [if_neg hexact]
      have h1 : c.addr < c.addr + req := by omega
      have h2 : req + (c.size - req) = c.size := by omega
      simp [addBlockScan, mergeNext, attachPrev, h1, hacne, h2]
  | cons a1 A' ih =>
    intro a c B req hcan hpos hle
    have ha1c : a1.addr + a1.size < c.addr :=
      canonical_head_lt hcan.2 c (List.mem_append.mpr (Or.inr (List.mem_cons_self c B)))
    have h1 : ¬ c.addr < a1.addr := by omega
    have := ih a1 c B req hcan.2 hpos hle
    simp only [List.cons_append] at this ⊢
    rw [addBlockScan, if_neg h1, this]

/-- Top-level version of `addBlockScan_restores`, covering the empty
prefix (where the re-inserted block becomes `top` again). -/
theorem addBlockL_restores (A : List Node) (c : Node) (B : List Node) (req : Nat)
    (hcan : Canonical (A ++ c :: B)) (hpos : 0 < req) (hle : req ≤ c.size) :
    addBlockL (A ++ (if req = c.size then [] else [⟨c.addr + req, c.size - req⟩]) ++ B)
      c.addr req = A ++ c :: B := by
  cases A with
  | nil =>
    by_cases hexact : req = c.size
    · subst hexact
      rw [if_pos rfl]
      cases B with
      | nil => rfl
      | cons b0 B' =>
        have hb0 : c.addr + c.size < b0.addr := hcan.1
        have h1 : c.addr < b0.addr := by omega
        have h2 : ¬ c.addr + c.size = b0.addr := by omega
        simp [addBlockL, mergeNext, h1, h2]
    · rw [if_neg hexact]
      have h1 : c.addr < c.addr + req := by omega
      have h2 : req + (c.size - req) = c.size := by omega
      simp [addBlockL, mergeNext, h1, h2]
  | cons a A' =>
    have hac : a.addr + a.size < c.addr :=
      canonical_head_lt hcan c (List.mem_append.mpr (Or.inr (List.mem_cons_self c B)))
    have h1 : ¬ c.addr < a.addr := by omega
    have := addBlockScan_restores A' a c B req hcan hpos hle
    simp only [List.cons_append] at this ⊢
    rw [addBlockL, if_neg h1]
    exact this

theorem addBlock_ok (s : MM) (b bs : Nat) (h0 : ¬ bs = 0) (h1 : ¬ bs < headerSize)
    (h2 : b % s.align = 0) :
    addBlock s b bs = (.ok (), { s with free := addBlockL s.free b bs }) := by
  simp [addBlock, h0, h1, h2]

theorem addBlock_zero (s : MM) (b : Nat) : addBlock s b 0 = (.ok (), s) := by
  simp [addBlock]

theorem sumSize_nil : sumSize [] = 0 := rfl

theorem sumSize_cons (a : Node) (l : List Node) :
    sumSize (a :: l) = a.size + sumSize l := by
  simp [sumSize]

theorem sortedAddr_of_canonical : ∀ {l : List Node}, Canonical l → SortedAddr l := by
  intro l
  induction l with
  | nil => intro _; trivial
  | cons a t ih =>
    intro h
    cases t with
    | nil => trivial
    | cons b t2 => exact ⟨by have := h.1; omega, ih h.2⟩

theorem canonical_replace_head {x y : Node} {l : List Node}
    (h : Canonical (y :: l)) (he : x.addr + x.size ≤ y.addr + y.size) :
    Canonical (x :: l) := by
  cases l with
  | nil => trivial
  | cons z t => exact ⟨by have := h.1; omega, h.2⟩

/-- Behaviour of the `get_prev`-scan insertion on a canonical list whose
head `n0` ends at or before the inserted block: the head address is
preserved, the result is canonical, the free byte total grows by
exactly the block size, node sizes stay positive, and every byte covered
by the result was covered by the block or by an original node. -/
theorem addBlockScan_spec : ∀ (t : List Node) (n0 : Node) (b bs : Nat),
    Canonical (n0 :: t) → 0 < bs → 0 < n0.size → (∀ n ∈ t, 0 < n.size) →
    n0.addr + n0.size ≤ b →
    (∀ n ∈ t, b + bs ≤ n.addr ∨ n.addr + n.size ≤ b) →
    ∃ sz t',
      addBlockScan (n0 :: t) b bs = ⟨n0.addr, sz⟩ :: t' ∧
      Canonical (⟨n0.addr, sz⟩ :: t') ∧
      sumSize (⟨n0.addr, sz⟩ :: t') = bs + n0.size + sumSize t ∧
      (∀ m ∈ (⟨n0.addr, sz⟩ : Node) :: t', 0 < m.size) ∧
      (∀ m ∈ (⟨n0.addr, sz⟩ : Node) :: t', ∀ x, InRange m x →
        (b ≤ x ∧ x < b + bs) ∨ InRange n0 x ∨ ∃ n ∈ t, InRange n x) := by
  intro t
  induction t with
  | nil =>
    intro n0 b bs hcan hbs hn0 _ hend _
    by_cases hp : n0.addr + n0.size = b
    · refine ⟨n0.size + bs, [], ?_, trivial, ?_, ?_, ?_⟩
      · simp [addBlockScan, mergeNext, attachPrev, hp]
      · simp [sumSize_cons, sumSize_nil]; omega
      · intro m hm
        rcases List.mem_singleton.mp hm with rfl
        simp; omega
      · intro m hm x hx
        rcases List.mem_singleton.mp hm with rfl
        unfold InRange at hx ⊢
        simp at hx
        by_cases hcase : x < n0.addr + n0.size
        · exact Or.inr (Or.inl ⟨hx.1, hcase⟩)
        · exact Or.inl ⟨by omega, by omega⟩
    · refine ⟨n0.size, [⟨b, bs⟩], ?_, ⟨by (try dsimp only); omega, trivial⟩, ?_, ?_, ?_⟩
      · simp [addBlockScan, mergeNext, attachPrev, hp]
      · simp [sumSize_cons, sumSize_nil]; omega
      · intro m hm
        rcases List.mem_cons.mp hm with rfl | hm'
        · exact hn0
        · rcases List.mem_singleton.mp hm' with rfl; exact hbs
      · intro m hm x hx
        rcases List.mem_cons.mp hm with rfl | hm'
        · exact Or.inr (Or.inl hx)
        · rcases List.mem_singleton.mp hm' with rfl
          exact Or.inl ⟨hx.1, hx.2⟩
  | cons nx tt ih =>
    intro n0 b bs hcan hbs hn0 htpos hend hdisj
    have hnxpos : 0 < nx.size := htpos nx (List.mem_cons_self nx tt)
    have hdn := hdisj nx (List.mem_cons_self nx tt)
    by_cases hbnx : b < nx.addr
    · have hbbs : b + bs ≤ nx.addr := by rcases hdn with h | h <;> omega
      by_cases hm : b + bs = nx.addr
      · -- forward merge with nx
        by_cases hp : n0.addr + n0.size = b
        · -- and backward merge into n0
          refine ⟨n0.size + (bs + nx.size), tt, ?_, ?_, ?_, ?_, ?_⟩
          · simp [addBlockScan, mergeNext, attachPrev, hbnx, hm, hp]
          · exact canonical_replace_head hcan.2 (by (try dsimp only); omega)
          · simp [sumSize_cons]; omega
          · intro m hm'
            rcases List.mem_cons.mp hm' with rfl | hm''
            · simp; omega
            · exact htpos m (List.mem_cons_of_mem nx hm'')
          · intro m hm' x hx
            rcases List.mem_cons.mp hm' with rfl | hm''
            · unfold InRange at hx ⊢
              simp at hx
              by_cases hc1 : x < n0.addr + n0.size
              · exact Or.inr (Or.inl ⟨hx.1, hc1⟩)
              · by_cases hc2 : x < b + bs
                · exact Or.inl ⟨by omega, hc2⟩
                · exact Or.inr (Or.inr ⟨nx, List.mem_cons_self nx tt, by omega, by omega⟩)
            · exact Or.inr (Or.inr ⟨m, List.mem_cons_of_mem nx hm'', hx⟩)
        · refine ⟨n0.size, ⟨b, bs + nx.size⟩ :: tt, ?_, ?_, ?_, ?_, ?_⟩
          · simp [addBlockScan, mergeNext, attachPrev, hbnx, hm, hp]
          · exact ⟨by (try dsimp only); omega, canonical_replace_head hcan.2 (by (try dsimp only); omega)⟩
          · simp [sumSize_cons]; omega
          · intro m hm'
            rcases List.mem_cons.mp hm' with rfl | hm''
            · exact hn0
            · rcases List.mem_cons.mp hm'' with rfl | hm3
              · simp; omega
              · exact htpos m (List.mem_cons_of_mem nx hm3)
          · intro m hm' x hx
            rcases List.mem_cons.mp hm' with rfl | hm''
            · exact Or.inr (Or.inl hx)
            · rcases List.mem_cons.mp hm'' with rfl | hm3
              · unfold InRange at hx ⊢
                simp at hx
                by_cases hc2 : x < b + bs
                · exact Or.inl ⟨hx.1, hc2⟩
                · exact Or.inr (Or.inr ⟨nx, List.mem_cons_self nx tt, by omega, by omega⟩)
              · exact Or.inr (Or.inr ⟨m, List.mem_cons_of_mem nx hm3, hx⟩)
      · -- no forward merge (a gap remains before nx)
        have hgap : b + bs < nx.addr := by (try dsimp only); omega
        by_cases hp : n0.addr + n0.size = b
        · refine ⟨n0.size + bs, nx :: tt, ?_, ?_, ?_, ?_, ?_⟩
          · simp [addBlockScan, mergeNext, attachPrev, hbnx, hm, hp]
          · exact ⟨by (try dsimp only); omega, hcan.2⟩
          · simp [sumSize_cons]; omega
          · intro m hm'
            rcases List.mem_cons.mp hm' with rfl | hm''
            · simp; omega
            · exact htpos m hm''
          · intro m hm' x hx
            rcases List.mem_cons.mp hm' with rfl | hm''
            · unfold InRange at hx ⊢
              simp at hx
              by_cases hc1 : x < n0.addr + n0.size
              · exact Or.inr (Or.inl ⟨hx.1, hc1⟩)
              · exact Or.inl ⟨by omega, by omega⟩
            · exact Or.inr (Or.inr ⟨m, hm'', hx⟩)
        · refine ⟨n0.size, ⟨b, bs⟩ :: nx :: tt, ?_, ?_, ?_, ?_, ?_⟩
          · simp [addBlockScan, mergeNext, attachPrev, hbnx, hm, hp]
          · exact ⟨by (try dsimp only); omega, by (try dsimp only); omega, hcan.2⟩
          · simp [sumSize_cons]; omega
          · intro m hm'
            rcases List.mem_cons.mp hm' with rfl | hm''
            · exact hn0
            · rcases List.mem_cons.mp hm'' with rfl | hm3
              · exact hbs
              · exact htpos m hm3
          · intro m hm' x hx
            rcases List.mem_cons.mp hm' with rfl | hm''
            · exact Or.inr (Or.inl hx)
            · rcases List.mem_cons.mp hm'' with rfl | hm3
              · exact Or.inl ⟨hx.1, hx.2⟩
              · exact Or.inr (Or.inr ⟨m, hm3, hx⟩)
    · -- the scan walks past nx
      have hnxe : nx.addr + nx.size ≤ b := by rcases hdn with h | h <;> omega
      obtain ⟨sz, t', heq, hcanr, hsum, hposr, hcov⟩ :=
        ih nx b bs hcan.2 hbs hnxpos
          (fun n hn => htpos n (List.mem_cons_of_mem nx hn)) hnxe
          (fun n hn => hdisj n (List.mem_cons_of_mem nx hn))
      refine ⟨n0.size, ⟨nx.addr, sz⟩ :: t', ?_, ?_, ?_, ?_, ?_⟩
      · rw [addBlockScan, if_neg hbnx, heq]
      · exact ⟨hcan.1, hcanr⟩
      · simp only [sumSize_cons] at hsum ⊢
        omega
      · intro m hm'
        rcases List.mem_cons.mp hm' with rfl | hm''
        · exact hn0
        · exact hposr m hm''
      · intro m hm' x hx
        rcases List.mem_cons.mp hm' with rfl | hm''
        · exact Or.inr (Or.inl hx)
        · rcases hcov m hm'' x hx with hblk | hnx | ⟨n, hn, hnr⟩
          · exact Or.inl hblk
          · exact Or.inr (Or.inr ⟨nx, List.mem_cons_self nx tt, hnx⟩)
          · exact Or.inr (Or.inr ⟨n, List.mem_cons_of_mem nx hn, hnr⟩)

/-- Full specification of the list-level ordered insert: on a canonical
list of positive-size nodes, inserting a positive block disjoint from
every node yields a canonical list, adds exactly the block size to the
free total, keeps sizes positive, and covers only bytes of the block or
of original nodes. -/
theorem addBlockL_spec (l : List Node) (b bs : Nat)
    (hcan : Canonical l) (hbs : 0 < bs)
    (hpos : ∀ n ∈ l, 0 < n.size)
    (hd : ∀ n ∈ l, b + bs ≤ n.addr ∨ n.addr + n.size ≤ b) :
    Canonical (addBlockL l b bs) ∧
    sumSize (addBlockL l b bs) = bs + sumSize l ∧
    (∀ m ∈ addBlockL l b bs, 0 < m.size) ∧
    (∀ m ∈ addBlockL l b bs, ∀ x, InRange m x →
      (b ≤ x ∧ x < b + bs) ∨ ∃ n ∈ l, InRange n x) := by
  cases l with
  | nil =>
    refine ⟨trivial, by simp [addBlockL, sumSize_cons, sumSize_nil], ?_, ?_⟩
    · intro m hm
      rcases List.mem_singleton.mp hm with rfl; exact hbs
    · intro m hm x hx
      rcases List.mem_singleton.mp hm with rfl
      exact Or.inl ⟨hx.1, hx.2⟩
  | cons n0 t =>
    have hn0pos : 0 < n0.size := hpos n0 (List.mem_cons_self n0 t)
    by_cases hb : b < n0.addr
    · have hbbs : b + bs ≤ n0.addr := by
        rcases hd n0 (List.mem_cons_self n0 t) with h | h <;> omega
      by_cases hm : b + bs = n0.addr
      · refine ⟨?_, ?_, ?_, ?_⟩ <;>
          simp only [addBlockL, if_pos hb, mergeNext, if_pos hm]
        · exact canonical_replace_head hcan (by (try dsimp only); omega)
        · simp [sumSize_cons]; omega
        · intro m hm'
          rcases List.mem_cons.mp hm' with rfl | hm''
          · simp; omega
          · exact hpos m (List.mem_cons_of_mem n0 hm'')
        · intro m hm' x hx
          rcases List.mem_cons.mp hm' with rfl | hm''
          · unfold InRange at hx ⊢
            simp at hx
            by_cases hc : x < b + bs
            · exact Or.inl ⟨hx.1, hc⟩
            · exact Or.inr ⟨n0, List.mem_cons_self n0 t, by omega, by omega⟩
          · exact Or.inr ⟨m, List.mem_cons_of_mem n0 hm'', hx⟩
      · refine ⟨?_, ?_, ?_, ?_⟩ <;>
          simp only [addBlockL, if_pos hb, mergeNext, if_neg hm]
        · refine ⟨?_, hcan⟩
          dsimp only
          omega
        · simp [sumSize_cons]
        · intro m hm'
          rcases List.mem_cons.mp hm' with rfl | hm''
          · exact hbs
          · exact hpos m hm''
        · intro m hm' x hx
          rcases List.mem_cons.mp hm' with rfl | hm''
          · exact Or.inl ⟨hx.1, hx.2⟩
          · exact Or.inr ⟨m, hm'', hx⟩
    · have hn0e : n0.addr + n0.size ≤ b := by
        rcases hd n0 (List.mem_cons_self n0 t) with h | h <;> omega
      obtain ⟨sz, t', heq, hcanr, hsum, hposr, hcov⟩ :=
        addBlockScan_spec t n0 b bs hcan hbs hn0pos
          (fun n hn => hpos n (List.mem_cons_of_mem n0 hn)) hn0e
          (fun n hn => hd n (List.mem_cons_of_mem n0 hn))
      have heqL : addBlockL (n0 :: t) b bs = ⟨n0.addr, sz⟩ :: t' := by
        rw [addBlockL, if_neg hb, heq]
      rw [heqL]
      refine ⟨hcanr, ?_, hposr, ?_⟩
      · rw [hsum, sumSize_cons]; omega
      · intro m hm' x hx
        rcases hcov m hm' x hx with hblk | hn0r | ⟨n, hn, hnr⟩
        · exact Or.inl hblk
        · exact Or.inr ⟨n0, List.mem_cons_self n0 t, hn0r⟩
        · exact Or.inr ⟨n, List.mem_cons_of_mem n0 hn, hnr⟩

/-- C1.  The spec scenario claims that after registering the 64-byte-
aligned region `[64, 320)` (256 bytes) with alignment 8, allocating 100
bytes leaves one free node of 156 bytes at offset 100 from the region
start (address 164).  The code rounds the 100-byte request up to 104,
so the remaining free node is `⟨168, 152⟩`, not `⟨164, 156⟩`: the claim
is false at this input. -/
theorem c1_counterexample :
    addBlock (initMM 8) 64 256 = (.ok (), ⟨[⟨64, 256⟩], 8, []⟩) ∧
    malloc ⟨[⟨64, 256⟩], 8, []⟩ 100 1 = (.ok 64, ⟨[⟨168, 152⟩], 8, [(64, 104)]⟩) ∧
    ¬ (malloc ⟨[⟨64, 256⟩], 8, []⟩ 100 1).2.free = [⟨64 + 100, 156⟩] := by
  refine ⟨rfl, rfl, ?_⟩
  decide

/-- C1 (amended).  Registering the 64-byte-aligned region `[64, 320)`
(256 bytes) into an empty allocator with alignment 8 and then allocating
100 bytes succeeds, returns the region start, and leaves exactly one
free node of 152 bytes at offset 104 (the request is rounded up from
100 to 104, the next multiple of the alignment 8). -/
theorem c1_amended :
    addBlock (initMM 8) 64 256 = (.ok (), ⟨[⟨64, 256⟩], 8, []⟩) ∧
    reqSize 8 (100 * 1) = 104 ∧
    malloc ⟨[⟨64, 256⟩], 8, []⟩ 100 1 = (.ok 64, ⟨[⟨64 + 104, 256 - 104⟩], 8, [(64, 104)]⟩) :=
  ⟨rfl, rfl, rfl⟩

/-- C2.  Violation of the free-node size invariant: registering a
24-byte block at address 64 (alignment 8) and allocating 16 bytes makes
the code create a split remainder node `⟨80, 8⟩` whose recorded size 8
is below `headerSize = 16`, so the invariant claimed for every
reachable free node fails on this reachable state. -/
theorem c2_split_below_header :
    addBlock (initMM 8) 64 24 = (.ok (), ⟨[⟨64, 24⟩], 8, []⟩) ∧
    malloc ⟨[⟨64, 24⟩], 8, []⟩ 16 1 = (.ok 64, ⟨[⟨80, 8⟩], 8, [(64, 16)]⟩) ∧
    (Node.mk 80 8).size < headerSize :=
  ⟨rfl, rfl, by decide⟩

/-- C3.  Violation of conservation: after registering 24 bytes and
allocating 16 of them (leaving the undersized 8-byte remainder node of
`c2_split_below_header`), `defrag` re-inserts the remainder through
`add_block`, which throws because 8 is below the header size; the throw
escapes mid-rebuild with `top` already reset, so the final state holds
0 free bytes and 16 ledger bytes: 16 ≠ 24 bytes ever registered. -/
theorem c3_defrag_loses_bytes :
    addBlock (initMM 8) 64 24 = (.ok (), ⟨[⟨64, 24⟩], 8, []⟩) ∧
    malloc ⟨[⟨64, 24⟩], 8, []⟩ 16 1 = (.ok 64, ⟨[⟨80, 8⟩], 8, [(64, 16)]⟩) ∧
    defrag ⟨[⟨80, 8⟩], 8, [(64, 16)]⟩ = (.error .blockTooSmall, ⟨[], 8, [(64, 16)]⟩) ∧
    freeTotal ⟨[], 8, [(64, 16)]⟩ + ledgerTotal ⟨[], 8, [(64, 16)]⟩ = 16 ∧
    (16 : Nat) ≠ 24 :=
  ⟨rfl, rfl, rfl, rfl, by decide⟩

/-- C8.  Ordered registration of `[b+0, b+64)` then `[b+128, b+192)`
into an empty allocator leaves two separate nodes (no merge);
registering `[b+64, b+128)` then merges with both neighbors into the
single node `[b+0, b+192)` of size 192.  The scenario's `[0,64)`,
`[128,192)`, `[64,128)` are read as offsets from an arbitrary aligned
base address `b`; `b` must be positive because in the source address 0
is the null-pointer sentinel (`if (!top)`, `while (get_next(ret))`) and
can never be a block address. -/
theorem c8_two_then_middle_merge (b : Nat) ( _hpos : 0 < b) (hb : b % 8 = 0) :
    addBlock (initMM 8) b 64 = (.ok (), ⟨[⟨b, 64⟩], 8, []⟩) ∧
    addBlock ⟨[⟨b, 64⟩], 8, []⟩ (b + 128) 64
      = (.ok (), ⟨[⟨b, 64⟩, ⟨b + 128, 64⟩], 8, []⟩) ∧
    addBlock ⟨[⟨b, 64⟩, ⟨b + 128, 64⟩], 8, []⟩ (b + 64) 64
      = (.ok (), ⟨[⟨b, 192⟩], 8, []⟩) := by
  have hb128 : (b + 128) % 8 = 0 := by omega
  have hb64 : (b + 64) % 8 = 0 := by omega
  have h1 : ¬ (b + 128 < b) := by omega
  have h2 : ¬ (b + 64 = b + 128) := by omega
  have h3 : ¬ (b + 64 < b) := by omega
  have h4 : b + 64 < b + 128 := by omega
  have h5 : b + 64 + 64 = b + 128 := by omega
  refine ⟨?_, ?_, ?_⟩
  · simp [addBlock, initMM, addBlockL, headerSize_eq, hb]
  · simp [addBlock, addBlockL, addBlockScan, mergeNext, attachPrev, headerSize_eq,
      hb128, h1, h2]
  · simp [addBlock, addBlockL, addBlockScan, mergeNext, attachPrev, headerSize_eq,
      hb64, h3, h4, h5]

/-- C8 witness: the scenario at base address 1024 (64-byte aligned,
nonzero): two separate nodes after the disjoint registrations, one
`⟨1024, 192⟩` node after the middle registration. -/
theorem c8_two_then_middle_merge_w :
    addBlock (initMM 8) 1024 64 = (.ok (), ⟨[⟨1024, 64⟩], 8, []⟩) ∧
    addBlock ⟨[⟨1024, 64⟩], 8, []⟩ 1152 64
      = (.ok (), ⟨[⟨1024, 64⟩, ⟨1152, 64⟩], 8, []⟩) ∧
    addBlock ⟨[⟨1024, 64⟩, ⟨1152, 64⟩], 8, []⟩ 1088 64
      = (.ok (), ⟨[⟨1024, 192⟩], 8, []⟩) :=
  c8_two_then_middle_merge 1024 (by decide) (by decide)

theorem mallocGo_eq_none (l : List Node) (req : Nat)
    (h : ∀ n ∈ l, n.size < req) : mallocGo l req = none := by
  induction l with
  | nil => rfl
  | cons n t ih =>
    have h1 := h n (List.mem_cons_self n t)
    have ih' := ih (fun m hm => h m (List.mem_cons_of_mem n hm))
    simp [mallocGo, h1, ih']

/-- C4.  Whenever no free node's recorded size reaches the rounded
request (which covers the empty free list), `malloc` fails with the
out-of-memory error and the whole state — free list and ledger — is
returned unchanged. -/
theorem malloc_no_fit_fails (s : MM) (N E : Nat)
    (h : ∀ n ∈ s.free, n.size < reqSize s.align (N * E)) :
    malloc s N E = (.error .outOfMemory, s) := by
  cases hf : s.free with
  | nil => simp [malloc, hf]
  | cons n t =>
    have hnone := mallocGo_eq_none (n :: t) (reqSize s.align (N * E)) (hf ▸ h)
    simp [malloc, hf, hnone]

/-- C4 witness: a single 16-byte free node cannot serve a 24-byte
request. -/
theorem malloc_no_fit_fails_w :
    (∀ n ∈ (MM.mk [⟨64, 16⟩] 8 []).free, n.size < reqSize 8 (3 * 8)) ∧
    malloc ⟨[⟨64, 16⟩], 8, []⟩ 3 8 = (.error .outOfMemory, ⟨[⟨64, 16⟩], 8, []⟩) :=
  ⟨by decide, malloc_no_fit_fails ⟨[⟨64, 16⟩], 8, []⟩ 3 8 (by decide)⟩

/-- C5.  Releasing an address absent from the allocation ledger fails
with the unknown-pointer error on both the ordered and the fast path,
with the state (ledger and free list) returned unchanged. -/
theorem release_unknown_fails (s : MM) (p : Nat)
    (h : ledgerLookup s.ledger p = none) :
    free s p = (.error .unknownPointer, s) ∧
    freeFast s p = (.error .unknownPointer, s) := by
  constructor
  · simp [free, h]
  · simp [freeFast, h]

/-- C5 witness: the double-free scenario.  From one 32-byte free node,
allocate 16 bytes, release the returned address 64 (which merges back
into the original node and empties the ledger), then release 64 again:
both the ordered and the fast second release fail with the
unknown-pointer error and leave the state unchanged. -/
theorem release_unknown_fails_w :
    malloc ⟨[⟨64, 32⟩], 8, []⟩ 16 1 = (.ok 64, ⟨[⟨80, 16⟩], 8, [(64, 16)]⟩) ∧
    free ⟨[⟨80, 16⟩], 8, [(64, 16)]⟩ 64 = (.ok (), ⟨[⟨64, 32⟩], 8, []⟩) ∧
    free ⟨[⟨64, 32⟩], 8, []⟩ 64 = (.error .unknownPointer, ⟨[⟨64, 32⟩], 8, []⟩) ∧
    freeFast ⟨[⟨64, 32⟩], 8, []⟩ 64 = (.error .unknownPointer, ⟨[⟨64, 32⟩], 8, []⟩) :=
  ⟨rfl, rfl, (release_unknown_fails ⟨[⟨64, 32⟩], 8, []⟩ 64 rfl).1,
    (release_unknown_fails ⟨[⟨64, 32⟩], 8, []⟩ 64 rfl).2⟩

/-- C10.  A zero-size request (`N = 0`, so the rounded size is 0) on a
non-empty free list succeeds instead of failing: the walk selects the
first node, the "partial fit" path rewrites its header in place with an
unchanged address and size, the node stays in the free list, and a
zero-size ledger entry is recorded for the node's own address — the
returned pointer aliases the live free node's header. -/
theorem malloc_zero_aliases_top (s : MM) (n : Node) (t : List Node) (E : Nat)
    (hf : s.free = n :: t) (hpos : 0 < n.size) :
    malloc s 0 E = (.ok n.addr, { s with ledger := ledgerSet s.ledger n.addr 0 }) ∧
    ledgerLookup (ledgerSet s.ledger n.addr 0) n.addr = some 0 := by
  have h0 : ¬ n.size < 0 := Nat.not_lt_zero n.size
  have h1 : ¬ (0 = n.size) := fun h => absurd hpos (h ▸ Nat.lt_irrefl 0)
  constructor
  · simp [malloc, hf, reqSize, mallocGo, h0, h1]
  · simp [ledgerLookup, ledgerSet]

/-- C10 witness: a zero-count allocation against a single 32-byte free
node at 64 returns 64, keeps the node, and records `(64, 0)`. -/
theorem malloc_zero_aliases_top_w :
    malloc ⟨[⟨64, 32⟩], 8, []⟩ 0 8 = (.ok 64, ⟨[⟨64, 32⟩], 8, [(64, 0)]⟩) ∧
    ledgerLookup [(64, 0)] 64 = some 0 :=
  malloc_zero_aliases_top ⟨[⟨64, 32⟩], 8, []⟩ ⟨64, 32⟩ [] 8 rfl (by decide)

/-- C9.  Inserting a valid block whose address precedes every node of a
non-empty sorted free list takes the no-predecessor path of `get_prev`:
the block becomes the new head (`top`) — possibly forward-merged with
the old head — and the list stays strictly sorted by start address. -/
theorem insert_before_all_is_top (s : MM) (b bs : Nat) (n0 : Node) (t : List Node)
    (hf : s.free = n0 :: t)
    (hlt : ∀ n ∈ s.free, b < n.addr)
    (hbs : headerSize ≤ bs) (hal : b % s.align = 0)
    (hsorted : SortedAddr s.free) :
    ∃ sz l', addBlock s b bs = (.ok (), { s with free := ⟨b, sz⟩ :: l' }) ∧
      SortedAddr (⟨b, sz⟩ :: l') := by
  have hbs0 : ¬ bs = 0 := by rw [headerSize_eq] at hbs; omega
  have hbsh : ¬ bs < headerSize := Nat.not_lt.mpr hbs
  have htop : b < n0.addr := hlt n0 (hf ▸ List.mem_cons_self n0 t)
  rw [hf] at hsorted
  by_cases hmerge : b + bs = n0.addr
  · refine ⟨bs + n0.size, t, ?_, ?_⟩
    · simp [addBlock, hbs0, hbsh, hal, addBlockL, hf, htop, mergeNext, hmerge]
    · cases t with
      | nil => trivial
      | cons n1 t2 =>
        exact ⟨hlt n1 (hf ▸ List.mem_cons_of_mem n0 (List.mem_cons_self n1 t2)),
          hsorted.2⟩
  · refine ⟨bs, n0 :: t, ?_, htop, hsorted⟩
    simp [addBlock, hbs0, hbsh, hal, addBlockL, hf, htop, mergeNext, hmerge]

/-- C9 witness: inserting a 16-byte block at 64 before a single node at
128 makes 64 the new head of a sorted list. -/
theorem insert_before_all_is_top_w :
    ∃ sz l', addBlock ⟨[⟨128, 32⟩], 8, []⟩ 64 16 = (.ok (), ⟨⟨64, sz⟩ :: l', 8, []⟩) ∧
      SortedAddr (⟨64, sz⟩ :: l') :=
  insert_before_all_is_top ⟨[⟨128, 32⟩], 8, []⟩ 64 16 ⟨128, 32⟩ [] rfl
    (by decide) (by decide) (by decide) (by decide)

/-- The re-insertion loop of `defrag`: starting from any state whose
free list is canonical with positive node sizes, re-inserting a chain
of header-valid, aligned, pairwise-disjoint blocks that are also
range-disjoint from the current free nodes succeeds and yields a
canonical free list holding exactly the old plus the inserted bytes,
without touching the alignment or the ledger. -/
theorem defragGo_spec : ∀ (rem : List Node) (s : MM),
    Canonical s.free →
    (∀ n ∈ s.free, 0 < n.size) →
    (∀ r ∈ rem, headerSize ≤ r.size) →
    (∀ r ∈ rem, r.addr % s.align = 0) →
    List.Pairwise Disj rem →
    (∀ m ∈ s.free, ∀ r ∈ rem, ∀ x, InRange m x → ¬ InRange r x) →
    ∃ l', defragGo rem s = (.ok (), { s with free := l' }) ∧
      Canonical l' ∧ sumSize l' = sumSize s.free + sumSize rem ∧
      (∀ n ∈ l', 0 < n.size) := by
  intro rem
  induction rem with
  | nil =>
    intro s h1 h2 _ _ _ _
    exact ⟨s.free, rfl, h1, by simp [sumSize_nil], h2⟩
  | cons r rest ih =>
    intro s hcan hpos hsz hal hpw hrd
    have hr16 : headerSize ≤ r.size := hsz r (List.mem_cons_self r rest)
    have hrpos : 0 < r.size := by rw [headerSize_eq] at hr16; omega
    have h0 : ¬ r.size = 0 := by omega
    have h1 : ¬ r.size < headerSize := Nat.not_lt.mpr hr16
    have h2 : r.addr % s.align = 0 := hal r (List.mem_cons_self r rest)
    have hdisj : ∀ n ∈ s.free, r.addr + r.size ≤ n.addr ∨ n.addr + n.size ≤ r.addr := by
      intro n hn
      have hrdn := hrd n hn r (List.mem_cons_self r rest)
      have hnpos := hpos n hn
      by_contra hcon
      push_neg at hcon
      rcases Nat.le_total n.addr r.addr with hle | hle
      · exact hrdn r.addr ⟨hle, by omega⟩ ⟨Nat.le_refl r.addr, by omega⟩
      · exact hrdn n.addr ⟨Nat.le_refl n.addr, by omega⟩ ⟨hle, by omega⟩
    obtain ⟨hcanL, hsumL, hposL, hcovL⟩ := addBlockL_spec s.free r.addr r.size hcan hrpos hpos hdisj
    have hstep := addBlock_ok s r.addr r.size h0 h1 h2
    obtain ⟨hpwr, hpwrest⟩ := List.pairwise_cons.mp hpw
    obtain ⟨l', hrun, hcanF, hsumF, hposF⟩ :=
      ih { s with free := addBlockL s.free r.addr r.size } hcanL hposL
        (fun r' hr' => hsz r' (List.mem_cons_of_mem r hr'))
        (fun r' hr' => hal r' (List.mem_cons_of_mem r hr'))
        hpwrest
        (by
          intro m hm r' hr' x hmx hrx'
          rcases hcovL m hm x hmx with hblk | ⟨n, hn, hnx⟩
          · have hdj := hpwr r' hr'
            unfold Disj at hdj
            unfold InRange at hrx'
            omega
          · exact hrd n hn r' (List.mem_cons_of_mem r hr') x hnx hrx')
    refine ⟨l', ?_, hcanF, ?_, hposF⟩
    · simp only [defragGo, hstep]
      exact hrun
    · dsimp only at hsumF
      rw [hsumF, sumSize_cons]
      omega

/-- C7.  `defrag` on any free list with intact headers — every node at
least the header size, aligned, and no two nodes' byte ranges
overlapping (the shape any sequence of fast inserts produces) —
succeeds and yields a free list strictly sorted by start address with
no two adjacent nodes physically contiguous, the same total free byte
count, and an untouched allocation ledger. -/
theorem defrag_canonicalizes (s : MM)
    (hsz : ∀ n ∈ s.free, headerSize ≤ n.size)
    (hal : ∀ n ∈ s.free, n.addr % s.align = 0)
    (hdisj : List.Pairwise Disj s.free) :
    ∃ s', defrag s = (.ok (), s') ∧
      SortedAddr s'.free ∧ Canonical s'.free ∧
      freeTotal s' = freeTotal s ∧ s'.ledger = s.ledger := by
  obtain ⟨l', hrun, hcan', hsum', _⟩ :=
    defragGo_spec s.free { s with free := [] } trivial
      (by intro n hn; cases hn) hsz hal hdisj
      (by intro m hm; cases hm)
  refine ⟨{ s with free := l' }, hrun, sortedAddr_of_canonical hcan', hcan', ?_, rfl⟩
  have h0 : sumSize ([] : List Node) = 0 := rfl
  simp only [freeTotal] at *
  rw [hsum']
  simp [sumSize_nil]

/-- C7 witness: a fragmented, unsorted free list with two physically
adjacent nodes (as three fast releases could leave it) defragments to
the single canonical node `⟨64, 48⟩`, preserving the 48 free bytes and
the ledger entry. -/
theorem defrag_canonicalizes_w :
    ∃ s', defrag ⟨[⟨96, 16⟩, ⟨64, 16⟩, ⟨80, 16⟩], 8, [(5, 7)]⟩ = (.ok (), s') ∧
      SortedAddr s'.free ∧ Canonical s'.free ∧
      freeTotal s' = freeTotal ⟨[⟨96, 16⟩, ⟨64, 16⟩, ⟨80, 16⟩], 8, [(5, 7)]⟩ ∧
      s'.ledger = [(5, 7)] :=
  defrag_canonicalizes ⟨[⟨96, 16⟩, ⟨64, 16⟩, ⟨80, 16⟩], 8, [(5, 7)]⟩
    (by decide) (by decide) (by decide)

/-- C6.  The round-trip claim fails as stated: from the canonical state
with one 256-byte free node at 64 and an empty ledger, allocating 8
bytes succeeds (rounded size 8), but the ordered release then throws
`BlockTooSmallError` — `add_block` rejects the 8-byte block because 8 is
below the 16-byte header size — so the free list stays at 248 free
bytes instead of being restored to 256, and the ledger entry survives. -/
theorem c6_counterexample :
    malloc ⟨[⟨64, 256⟩], 8, []⟩ 8 1 = (.ok 64, ⟨[⟨72, 248⟩], 8, [(64, 8)]⟩) ∧
    free ⟨[⟨72, 248⟩], 8, [(64, 8)]⟩ 64 =
      (.error .blockTooSmall, ⟨[⟨72, 248⟩], 8, [(64, 8)]⟩) ∧
    ¬ (free ⟨[⟨72, 248⟩], 8, [(64, 8)]⟩ 64).2.free = [⟨64, 256⟩] :=
  ⟨rfl, rfl, by decide⟩

/-- C6 (amended).  For every canonical free-list state with valid nodes
and no outstanding allocations, if the rounded request is zero or at
least the header size, a successful allocation followed by an ordered
release of the returned address restores the allocator state exactly:
same free-list node sequence and an empty ledger again. -/
theorem roundtrip_restores (s : MM) (N E p : Nat) (s' : MM)
    (hled : s.ledger = [])
    (hcan : Canonical s.free)
    (hsz : ∀ n ∈ s.free, headerSize ≤ n.size)
    (hal : ∀ n ∈ s.free, n.addr % s.align = 0)
    (hreq : reqSize s.align (N * E) = 0 ∨ headerSize ≤ reqSize s.align (N * E))
    (hm : malloc s N E = (.ok p, s')) :
    free s' p = (.ok (), s) := by
  obtain ⟨sf, sa, sl⟩ := s
  simp only at hled hcan hsz hal hreq hm ⊢
  subst hled
  cases hf : sf with
  | nil => rw [hf] at hm; simp [malloc] at hm
  | cons n t =>
    rw [hf] at hm hcan hsz hal
    rcases hgo : mallocGo (n :: t) (reqSize sa (N * E)) with _ | ⟨a, l'⟩
    · simp [malloc, hgo] at hm
    · simp only [malloc, hgo] at hm
      obtain ⟨hap, hs'⟩ : Except.ok a = Except.ok p ∧
          (⟨l', sa, ledgerSet [] a (reqSize sa (N * E))⟩ : MM) = s' := by
        constructor <;> [exact congrArg Prod.fst hm; exact congrArg Prod.snd hm]
      obtain rfl : a = p := Except.ok.inj hap
      subst hs'
      have hlook : ledgerLookup (ledgerSet [] a (reqSize sa (N * E))) a
          = some (reqSize sa (N * E)) := by
        simp [ledgerSet, ledgerLookup]
      have herase : ledgerErase (ledgerSet [] a (reqSize sa (N * E))) a = [] := by
        simp [ledgerSet, ledgerErase, List.eraseP_cons]
      rcases hreq with hreq0 | hreq16
      · -- rounded size zero: the free list was never modified
        have hn16 : headerSize ≤ n.size := hsz n (List.mem_cons_self n t)
        have hns : ¬ n.size < reqSize sa (N * E) := by rw [hreq0]; omega
        have hne : ¬ reqSize sa (N * E) = n.size := by
          rw [headerSize_eq] at hn16; omega
        rw [mallocGo, if_neg hns, if_neg hne] at hgo
        obtain ⟨hpa, hl'⟩ : n.addr = a ∧
            (⟨n.addr + reqSize sa (N * E), n.size - reqSize sa (N * E)⟩ : Node) :: t = l' := by
          constructor <;> [exact congrArg Prod.fst (Option.some.inj hgo);
            exact congrArg Prod.snd (Option.some.inj hgo)]
        have hl'' : l' = n :: t := by
          rw [← hl', hreq0]
          simp
        have hab : addBlock ⟨n :: t, sa, ledgerSet [] a (reqSize sa (N * E))⟩ a
            (reqSize sa (N * E)) = (.ok (), ⟨n :: t, sa, ledgerSet [] a (reqSize sa (N * E))⟩) := by
          rw [hreq0]; exact addBlock_zero _ _
        simp [free, hlook, hab, herase, hl'']
      · -- rounded size at least the header: the carve is undone exactly
        have h0 : ¬ reqSize sa (N * E) = 0 := by rw [headerSize_eq] at hreq16; omega
        have h1 : ¬ reqSize sa (N * E) < headerSize := by omega
        obtain ⟨A, c, B, hdec, hA, hc, hpa, hl'⟩ :=
          mallocGo_spec (n :: t) (reqSize sa (N * E)) a l' hgo
        have h2 : a % sa = 0 := by
          rw [hpa]; exact hal c (hdec ▸ List.mem_append.mpr (Or.inr (List.mem_cons_self c B)))
        have hrest : addBlockL l' a (reqSize sa (N * E)) = n :: t := by
          rw [hl', hpa, hdec]
          exact addBlockL_restores A c B (reqSize sa (N * E)) (hdec ▸ hcan)
            (by rw [headerSize_eq] at hreq16; omega) hc
        have hab := addBlock_ok ⟨l', sa, ledgerSet [] a (reqSize sa (N * E))⟩ a
          (reqSize sa (N * E)) h0 h1 h2
        simp [free, hlook, hab, hrest, herase]

/-- C6 witness: one 256-byte node at 64, allocate 104 bytes (13 × 8),
release the returned address 64 — the allocator returns to its initial
state. -/
theorem roundtrip_restores_w :
    malloc ⟨[⟨64, 256⟩], 8, []⟩ 13 8 = (.ok 64, ⟨[⟨168, 152⟩], 8, [(64, 104)]⟩) ∧
    free ⟨[⟨168, 152⟩], 8, [(64, 104)]⟩ 64 = (.ok (), ⟨[⟨64, 256⟩], 8, []⟩) :=
  ⟨rfl, roundtrip_restores ⟨[⟨64, 256⟩], 8, []⟩ 13 8 64 ⟨[⟨168, 152⟩], 8, [(64, 104)]⟩
    rfl (by decide) (by decide) (by decide) (by decide) rfl⟩

end MemManager
